import Mathlib

/-!
Shallow embedding of the JOTS-assistant document-rewriting engine
(`src/commands/addJots.ts`, canonical revision: the one exporting
`addJotsToJournal`, which `src/api/JotsApi.ts` imports).

Documents are JavaScript strings; we model them as Lean `String`s and
work on their underlying character lists, so that every definition is
executable and concrete runs can be settled by `decide`.

Conventions for translating the JavaScript source:
* `content.split('\n')`        -> `strLines` (splits on every newline, keeping empty pieces)
* `array.join('\n')`           -> `joinLines`
* `s.trim()`                   -> `strTrim`
* `s.trimStart()`              -> `strTrimLeft`
* `s.toLowerCase()`            -> `strLower`
* `s.startsWith(p)`            -> `strStarts`
* `s.replace(/^>\s*/, '')`     -> `stripQuote`
* `Array.prototype.sort(cmp)`  -> stable insertion sort `isortT` (ES2019 requires a stable sort)
* regular expressions          -> hand-written character-level matchers, one per regex
-/

/-- JavaScript whitespace characters relevant to `\s`, `trim` and friends
(the documents in scope are ASCII text). -/
def isWsChar (c : Char) : Bool :=
  c = ' ' || c = '\t' || c = '\n' || c = '\r'

/-- ASCII letter test, the `[A-Za-z]` character class. -/
def isAsciiLetter (c : Char) : Bool :=
  ('A' ≤ c && c ≤ 'Z') || ('a' ≤ c && c ≤ 'z')

/-- ASCII digit test, the `\d` character class. -/
def isDigitCh (c : Char) : Bool :=
  '0' ≤ c && c ≤ '9'

/-- Build a `String` from a character list. -/
def chStr (l : List Char) : String := ⟨l⟩

/-- Split a character list at every occurrence of `sep`, keeping empty pieces,
exactly like JavaScript `String.prototype.split` with a one-character separator. -/
def splitOnCh (sep : Char) : List Char → List (List Char)
  | [] => [[]]
  | c :: rest =>
    let r := splitOnCh sep rest
    if c = sep then [] :: r
    else
      match r with
      | h :: t => (c :: h) :: t
      | [] => [[c]]

/-- `content.split('\n')`. -/
def strLines (s : String) : List String :=
  (splitOnCh '\n' s.data).map chStr

/-- `array.join('\n')`. -/
def joinLines (ls : List String) : String :=
  chStr (((ls.map String.data).intersperse ['\n']).flatten)

/-- `s.trim()`: drop leading and trailing whitespace. -/
def strTrim (s : String) : String :=
  chStr (((s.data.dropWhile isWsChar).reverse.dropWhile isWsChar).reverse)

/-- `s.trimStart()`. -/
def strTrimLeft (s : String) : String :=
  chStr (s.data.dropWhile isWsChar)

/-- `s.toLowerCase()` (ASCII). -/
def strLower (s : String) : String :=
  chStr (s.data.map Char.toLower)

/-- `s.startsWith(p)`. -/
def strStarts (s p : String) : Bool :=
  p.data.isPrefixOf s.data

/-- `s.replace(/^>\s*/, '')`: remove one leading `>` together with the
whitespace that follows it; other strings are unchanged. -/
def stripQuote (s : String) : String :=
  match s.data with
  | '>' :: r => chStr (r.dropWhile isWsChar)
  | _ => s

/-- A line is blank when `line.trim() === ''`. -/
def blankL (s : String) : Bool :=
  strTrim s = ""

/-- Decimal value of a digit list, the behaviour of JavaScript `Number` on the
pure-digit strings produced by the time extractor. -/
def natOfDigits (l : List Char) : Nat :=
  l.foldl (fun n c => n * 10 + (c.toNat - '0'.toNat)) 0

/-! ## Data model: configuration and tasks -/

/-- `JotsSectionFormat` from `src/settings.ts`. -/
inductive JotsSectionFormat where
  | plain
  | foldableOpen
  | foldableClosed
deriving DecidableEq, Repr

/-- The slice of the plugin settings the rewriting engine reads:
`sectionName`, `sectionFormat` and `taskLetters`. -/
structure Config where
  sectionName : String
  sectionFormat : JotsSectionFormat
  taskLetters : List String
deriving DecidableEq, Repr

/-- The `DEFAULT_SETTINGS` slice from `src/settings.ts`. -/
def cfg0 : Config :=
  { sectionName := "JOTS", sectionFormat := .plain, taskLetters := ["A", "B", "C"] }

/-- `TaskWithTime` from `addJots.ts`. -/
structure TaskWithTime where
  line : String
  index : Nat
  time : Option String
deriving DecidableEq, Repr

/-- `JotsSection` from `addJots.ts`. -/
structure JotsSection where
  startIndex : Nat
  endIndex : Nat
  items : List TaskWithTime
deriving DecidableEq, Repr

/-! ## Regex matchers -/

/-- Attempt the tail `(time:: H:MM)` digit pattern `\d{1,2}:\d{2}\)` at the
head of `r` (which follows `(time::` and the `\s*` skip), returning the
captured group `\d{1,2}:\d{2}`. -/
def timeDigits (r : List Char) : Option (List Char) :=
  match r with
  | a :: b :: c :: d :: e :: rest2 =>
    if isDigitCh a then
      if isDigitCh b then
        if c = ':' && isDigitCh d && isDigitCh e then
          match rest2 with
          | ')' :: _ => some [a, b, ':', d, e]
          | _ => none
        else none
      else if b = ':' then
        if isDigitCh c && isDigitCh d && e = ')' then some [a, ':', c, d] else none
      else none
    else none
  | _ => none

/-- Attempt `\(time::\s*(\d{1,2}:\d{2})\)` anchored at the head of `l`. -/
def timeTokenAt (l : List Char) : Option (List Char) :=
  match l with
  | '(' :: 't' :: 'i' :: 'm' :: 'e' :: ':' :: ':' :: rest =>
    timeDigits (rest.dropWhile isWsChar)
  | _ => none

/-- Left-to-right scan for the first `\(time::\s*(\d{1,2}:\d{2})\)` match. -/
def extractTimeChars : List Char → Option (List Char)
  | [] => none
  | c :: rest =>
    match timeTokenAt (c :: rest) with
    | some t => some t
    | none => extractTimeChars rest

/-- `extractTimeFromTask`: `taskLine.match(/\(time::\s*(\d{1,2}:\d{2})\)/)`,
returning the captured time or `undefined`. -/
def extractTimeFromTask (taskLine : String) : Option String :=
  (extractTimeChars taskLine.data).map chStr

/-- The bracket-letter part `\[([A-Za-z])\]` preceded by `-\s*`, shared tail of
the two task-line regexes. -/
def dashBracketLetter (l : List Char) : Option Char :=
  match l with
  | '-' :: r1 =>
    match r1.dropWhile isWsChar with
    | '[' :: c :: rest =>
      if isAsciiLetter c then
        match rest with
        | ']' :: _ => some c
        | _ => none
      else none
    | _ => none
  | _ => none

/-- `/^>\s*-\s*\[([A-Za-z])\]/`: quote-prefixed task line, capturing the letter. -/
def matchTaskQuoted (l : List Char) : Option Char :=
  match l with
  | '>' :: r => dashBracketLetter (r.dropWhile isWsChar)
  | _ => none

/-- `/^(>?\s*)?-\s*\[([A-Za-z])\]/`: task line with optional quote marker,
capturing the letter. -/
def matchTaskOpt (l : List Char) : Option Char :=
  let l1 := match l with
    | '>' :: r => r
    | _ => l
  dashBracketLetter (l1.dropWhile isWsChar)

/-- `getTaskLetter`: the captured letter of `/^>\s*-\s*\[([A-Za-z])\]/`,
upper-cased (`match[1].toUpperCase()`). -/
def getTaskLetter (taskLine : String) : Option String :=
  (matchTaskQuoted taskLine.data).map (fun c => chStr [c.toUpper])

/-- Header pattern `^> \[!name\](?:[+\-]|\s|$)` for the configured
(lower-cased) section name. -/
def isJotsHeader (cfg : Config) (line : String) : Bool :=
  let p := "> [!" ++ strLower cfg.sectionName ++ "]"
  strStarts line p &&
    (match line.data.drop p.data.length with
     | [] => true
     | c :: _ => c = '+' || c = '-' || isWsChar c)

/-- `createCalloutString`: the section header for the configured name and
fold-state format. -/
def createCalloutString (cfg : Config) : String :=
  let base := "> [!" ++ strLower cfg.sectionName ++ "]"
  match cfg.sectionFormat with
  | .foldableOpen => base ++ "+"
  | .foldableClosed => base ++ "-"
  | .plain => base

/-! ## sortTasks -/

/-- `time.split(':')` then `hours * 60 + minutes`, the comparison key of the
timed-task comparator. -/
def timeMinutes (s : String) : Nat :=
  match splitOnCh ':' s.data with
  | h :: m :: _ => natOfDigits h * 60 + natOfDigits m
  | _ => 0

/-- Sort key of a task; only consulted on tasks whose `time` is present. -/
def taskKey (t : TaskWithTime) : Nat :=
  match t.time with
  | some s => timeMinutes s
  | none => 0

/-- The comparator passed to `withTime.sort`: returns `0` when either time is
falsy (`undefined` or the empty string), otherwise the difference of the
minutes-since-midnight keys. -/
def cmpT (a b : TaskWithTime) : Int :=
  if a.time = none || a.time = some "" || b.time = none || b.time = some "" then 0
  else (taskKey a : Int) - (taskKey b : Int)

/-- Stable insertion of `x`: `x` is placed before the first `y` it does not
compare strictly after, which is the unique stable position. -/
def insertT (x : TaskWithTime) : List TaskWithTime → List TaskWithTime
  | [] => [x]
  | y :: ys => if cmpT x y ≤ 0 then x :: y :: ys else y :: insertT x ys

/-- Stable sort with the `cmpT` comparator, modelling
`withTime.sort((a, b) => ...)` (ES2019 `Array.prototype.sort` is stable). -/
def isortT : List TaskWithTime → List TaskWithTime
  | [] => []
  | x :: xs => insertT x (isortT xs)

/-- Append `t` to the bucket of letter `L` in the `tasksByLetter` dictionary,
creating the bucket on first use. -/
def addToBucket : List (String × List TaskWithTime) → String → TaskWithTime →
    List (String × List TaskWithTime)
  | [], L, t => [(L, [t])]
  | (K, g) :: rest, L, t =>
    if K = L then (K, g ++ [t]) :: rest else (K, g) :: addToBucket rest L t

/-- The `tasksByLetter` dictionary: group the untimed tasks by
`getTaskLetter`, discarding tasks whose line yields no letter. -/
def buildBuckets (ts : List TaskWithTime) : List (String × List TaskWithTime) :=
  ts.foldl
    (fun bs t =>
      match getTaskLetter t.line with
      | some L => addToBucket bs L t
      | none => bs)
    []

/-- Dictionary lookup `tasksByLetter[letter]`. -/
def lookupBucket : List (String × List TaskWithTime) → String → Option (List TaskWithTime)
  | [], _ => none
  | (K, g) :: rest, L => if K = L then some g else lookupBucket rest L

/-- `sortTasks`: timed tasks stably sorted by minutes-since-midnight, followed
by the untimed tasks grouped by letter, groups emitted in `taskLetters` order. -/
def sortTasks (cfg : Config) (tasks : List TaskWithTime) : List TaskWithTime :=
  let withTime := tasks.filter (fun t => t.time.isSome)
  let withoutTime := tasks.filter (fun t => t.time.isNone)
  let buckets := buildBuckets withoutTime
  let ordered := cfg.taskLetters.foldl
    (fun acc L =>
      match lookupBucket buckets L with
      | some g => acc ++ g
      | none => acc)
    []
  isortT withTime ++ ordered

/-! ## Section discovery (`findJotsSection`) -/

/-- A line continues the section body when `line.trim().startsWith('> -')`. -/
def contLine (l : String) : Bool :=
  strStarts (strTrim l) "> -"

/-- Section-item test: the trimmed line matches `/^>\s*-\s*\[([A-Za-z])\]/`. -/
def isSectionTask (tl : String) : Bool :=
  (matchTaskQuoted tl.data).isSome

/-- `findJotsSection`: locate the first header line, extend the section
through every following line whose trimmed form starts with `> -`, and
collect the task items inside (any bracket letter, no allow-list filter). -/
def findJotsSection (cfg : Config) (lines : List String) : Option JotsSection :=
  match lines.findIdx? (fun l => isJotsHeader cfg l) with
  | none => none
  | some h =>
    let body := (lines.drop (h + 1)).takeWhile contLine
    let items := body.enum.filterMap
      (fun p =>
        let tl := strTrim p.2
        if isSectionTask tl then
          some { line := tl, index := h + 1 + p.1, time := extractTimeFromTask tl }
        else none)
    some { startIndex := h, endIndex := h + body.length, items := items }

/-- `lines.splice(startIndex, endIndex - startIndex + 1)`: remove the section
lines from the document. -/
def spliceSection (lines : List String) (s : JotsSection) : List String :=
  lines.take s.startIndex ++ lines.drop (s.endIndex + 1)

/-! ## Task discovery (`findMatchingTasks`) -/

/-- The normalization applied to every candidate line before deduplication and
removal: `line.trim().replace(/^>\s*/, '').trim()`. -/
def normLine (s : String) : String :=
  strTrim (stripQuote (strTrim s))

/-- The per-line decision of `findMatchingTasks`: if the trimmed line matches
the optional-quote task pattern and its upper-cased letter is in the
configured `taskLetters`, return the normalized content, else `none`. -/
def keyOfLine (cfg : Config) (l : String) : Option String :=
  match matchTaskOpt (strTrim l).data with
  | some c => if chStr [c.toUpper] ∈ cfg.taskLetters then some (normLine l) else none
  | none => none

/-- Loop body of `findMatchingTasks`: walk the lines at index `i` with the
`seenTasks` set, pushing one task per first-seen normalized content. -/
def fmtGo (cfg : Config) : List String → Nat → List String → List TaskWithTime
  | [], _, _ => []
  | l :: rest, i, seen =>
    match keyOfLine cfg l with
    | some normalized =>
      if normalized ∈ seen then fmtGo cfg rest (i + 1) seen
      else
        { line := "> " ++ normalized, index := i, time := extractTimeFromTask (strTrim l) }
          :: fmtGo cfg rest (i + 1) (normalized :: seen)
    | none => fmtGo cfg rest (i + 1) seen

/-- `findMatchingTasks`: collect every allow-listed task line, normalized to
begin with `> `, deduplicated first-seen on the normalized content. -/
def findMatchingTasks (cfg : Config) (lines : List String) : List TaskWithTime :=
  fmtGo cfg lines 0 []

/-! ## Removal (`removeMatchingTasks`) -/

/-- One backward sweep of `removeMatchingTasks`.  The second `Nat` is
`i + 1` where `i` is the current index; when the normalized line is one of
the collected task contents, remove it together with at most one adjacent
blank line on each side, then continue below.  The first `Nat` is fuel that
makes the recursion structural: every step lowers the index counter by at
least one, so with initial fuel `lines.length` the fuel never runs out. -/
def removeLoop (keys : List String) : Nat → List String → Nat → List String
  | 0, lines, _ => lines
  | _, lines, 0 => lines
  | f + 1, lines, n + 1 =>
    let i := n
    match lines.get? i with
    | none => removeLoop keys f lines n
    | some line =>
      if blankL line then removeLoop keys f lines n
      else if normLine line ∈ keys then
        let lines1 := lines.eraseIdx i
        let above : Bool := 0 < i &&
          (match lines1.get? (i - 1) with
           | some p => blankL p
           | none => false)
        let lines2 := if above then lines1.eraseIdx (i - 1) else lines1
        let i2 := if above then i - 1 else i
        let lines3 :=
          match lines2.get? i2 with
          | some nxt => if blankL nxt then lines2.eraseIdx i2 else lines2
          | none => lines2
        removeLoop keys f lines3 i2
      else removeLoop keys f lines n

/-- `removeMatchingTasks`: remove from the document every line whose
normalized content matches a collected task, sweeping from the bottom. -/
def removeMatchingTasks (lines : List String) (tasks : List TaskWithTime) : List String :=
  removeLoop (tasks.map (fun t => strTrim (stripQuote t.line))) lines.length lines lines.length

/-! ## Blank-line cleanup (`cleanupEmptyLines`) -/

/-- Backward sweep collapsing adjacent blank lines: at index `i + 1`, erase the
line when both it and its predecessor are blank. -/
def cleanupLoop : List String → Nat → List String
  | lines, 0 => lines
  | lines, i + 1 =>
    let lines' :=
      match lines.get? (i + 1), lines.get? i with
      | some a, some b => if blankL a && blankL b then lines.eraseIdx (i + 1) else lines
      | _, _ => lines
    cleanupLoop lines' i

/-- `while (lines.length > 0 && lines[lines.length-1].trim() === '') lines.pop()`. -/
def dropTrailingBlanks (lines : List String) : List String :=
  (lines.reverse.dropWhile (fun l => blankL l)).reverse

/-- `cleanupEmptyLines`: collapse runs of blank lines and drop trailing blanks. -/
def cleanupEmptyLines (lines : List String) : List String :=
  dropTrailingBlanks (cleanupLoop lines (lines.length - 1))

/-! ## Front matter isolation -/

/-- The front-matter split at the top of `processFileContent`:
`content.match` with the anchored non-greedy front-matter pattern
(three dashes, newline, minimal content, newline, three dashes) followed by
`content.slice(match.length).trim()` (or `content.trim()` when absent).
The non-greedy match closes at the first line, at line index at least 2,
that starts with `---`; only its first three characters are consumed. -/
def yamlSplit (content : String) : Option String × String :=
  match strLines content with
  | [] => (none, strTrim content)
  | l0 :: rest =>
    if l0 = "---" then
      match (rest.drop 1).findIdx? (fun l => strStarts l "---") with
      | some k =>
        let j := k + 1
        let cl := ((rest.drop 1).get? k).getD ""
        let fm := joinLines (l0 :: rest.take j) ++ "\n---"
        let bodyRaw := joinLines (chStr (cl.data.drop 3) :: rest.drop (j + 1))
        (some fm, strTrim bodyRaw)
      | none => (none, strTrim content)
    else (none, strTrim content)

/-! ## The rewrite (`processFileContent`) -/

/-- The body of `processFileContent` after front-matter isolation: collect the
existing section's items and splice the section out, collect and remove the
matching tasks, clean up blank lines, and re-emit front matter, body, and the
rebuilt section; `none` is the "no change" sentinel. -/
def processBody (cfg : Config) (fm : Option String) (body : String) : Option String :=
  let lines := strLines body
  let secOpt := findJotsSection cfg lines
  let lines1 :=
    match secOpt with
    | some s => spliceSection lines s
    | none => lines
  let secItems :=
    match secOpt with
    | some s => s.items
    | none => []
  let matching := findMatchingTasks cfg lines1
  let lines2 := if matching.isEmpty then lines1 else removeMatchingTasks lines1 matching
  let changed := secOpt.isSome || !matching.isEmpty
  if changed then
    let lines3 := cleanupEmptyLines lines2
    let allTasks := secItems ++ matching
    let base :=
      (match fm with
       | some y => [y, ""]
       | none => []) ++ lines3
    let final :=
      if allTasks.isEmpty then base
      else
        base ++
          (match base.getLast? with
           | some last => if blankL last then [] else [""]
           | none => []) ++
          (createCalloutString cfg :: (sortTasks cfg allTasks).map (fun t => t.line))
    some (joinLines final)
  else none

/-- `processFileContent`: front-matter isolation followed by the body rewrite. -/
def processFileContent (cfg : Config) (content : String) : Option String :=
  let s := yamlSplit content
  processBody cfg s.1 s.2

/-! ## Containment back-scan (`isTaskInCallout`) -/

/-- Backward scan from index `i` for the nearest preceding line whose trimmed
form matches the configured section-header pattern. -/
def backScanJots (cfg : Config) (lines : List String) : Nat → Option Nat
  | 0 => none
  | j + 1 =>
    if isJotsHeader cfg (strTrim (((lines.get? j).getD ""))) then some j
    else backScanJots cfg lines j

/-- End of the callout that starts at `start`: the last following line whose
`trimStart()` begins with `>`. -/
def calloutEndFrom (lines : List String) (start : Nat) : Nat :=
  start + ((lines.drop (start + 1)).takeWhile (fun l => strStarts (strTrimLeft l) ">")).length

/-- `isTaskInCallout` (canonical revision): the back-scan looks only for the
configured section's header; membership in any other callout never exempts. -/
def isTaskInCallout (cfg : Config) (lines : List String) (i : Nat) : Bool :=
  match backScanJots cfg lines i with
  | some s => decide (s < i) && decide (i ≤ calloutEndFrom lines s)
  | none => false

/-- Generic callout-header pattern `/^>\s*\[!.*\]/`, used to state that a line
sits inside some other, non-JOTS callout. -/
def isAnyCalloutHeader (l : String) : Bool :=
  match l.data with
  | '>' :: r =>
    match r.dropWhile isWsChar with
    | '[' :: '!' :: rest => rest.contains ']'
    | _ => false
  | _ => false

/-- The tagged-entry contents of a document text: the normalized content of
every line matching the allow-listed task pattern.  Used to state the
content-conservation claim. -/
def taggedContents (cfg : Config) (text : String) : List String :=
  (strLines text).filterMap (fun l => keyOfLine cfg l)

/-! ## Lemmas about the comparator and the stable sort -/

/-- A task whose `time` is neither `undefined` nor the empty string: on such
tasks the comparator really compares the minute keys. -/
def goodTime (t : TaskWithTime) : Prop :=
  t.time ≠ none ∧ t.time ≠ some ""

instance (t : TaskWithTime) : Decidable (goodTime t) := by
  unfold goodTime; infer_instance

theorem cmpT_le_iff {a b : TaskWithTime} (ha : goodTime a) (hb : goodTime b) :
    cmpT a b ≤ 0 ↔ taskKey a ≤ taskKey b := by
  unfold cmpT
  rw [if_neg]
  · omega
  · simp [ha.1, ha.2, hb.1, hb.2]

theorem insertT_perm (x : TaskWithTime) (l : List TaskWithTime) :
    (insertT x l).Perm (x :: l) := by
  induction l with
  | nil => simp [insertT]
  | cons y ys ih =>
    simp only [insertT]
    split
    · exact List.Perm.refl _
    · exact (List.Perm.cons y ih).trans (List.Perm.swap x y ys)

theorem isortT_perm (l : List TaskWithTime) : (isortT l).Perm l := by
  induction l with
  | nil => simp [isortT]
  | cons x xs ih =>
    exact (insertT_perm x (isortT xs)).trans (List.Perm.cons x ih)

theorem mem_insertT {t x : TaskWithTime} {l : List TaskWithTime} :
    t ∈ insertT x l ↔ t = x ∨ t ∈ l := by
  rw [(insertT_perm x l).mem_iff]
  simp

theorem mem_isortT {t : TaskWithTime} {l : List TaskWithTime} :
    t ∈ isortT l ↔ t ∈ l :=
  (isortT_perm l).mem_iff

theorem insertT_pairwise {x : TaskWithTime} {l : List TaskWithTime}
    (hx : goodTime x) (hl : ∀ y ∈ l, goodTime y)
    (hs : l.Pairwise (fun a b => taskKey a ≤ taskKey b)) :
    (insertT x l).Pairwise (fun a b => taskKey a ≤ taskKey b) := by
  induction l with
  | nil => simp [insertT]
  | cons y ys ih =>
    have hy : goodTime y := hl y (by simp)
    have hys : ∀ z ∈ ys, goodTime z := fun z hz => hl z (by simp [hz])
    simp only [insertT]
    rcases List.pairwise_cons.mp hs with ⟨hyys, hsys⟩
    split
    · rename_i hle
      have hxy : taskKey x ≤ taskKey y := (cmpT_le_iff hx hy).mp hle
      refine List.pairwise_cons.mpr ⟨?_, hs⟩
      intro z hz
      rcases List.mem_cons.mp hz with rfl | hz
      · exact hxy
      · exact le_trans hxy (hyys z hz)
    · rename_i hgt
      have hyx : taskKey y ≤ taskKey x := by
        have := (cmpT_le_iff hx hy).not.mp hgt
        omega
      refine List.pairwise_cons.mpr ⟨?_, ih hys hsys⟩
      intro z hz
      rcases mem_insertT.mp hz with rfl | hz
      · exact hyx
      · exact hyys z hz

theorem isortT_pairwise {l : List TaskWithTime} (hl : ∀ y ∈ l, goodTime y) :
    (isortT l).Pairwise (fun a b => taskKey a ≤ taskKey b) := by
  induction l with
  | nil => simp [isortT]
  | cons x xs ih =>
    have hx : goodTime x := hl x (by simp)
    have hxs : ∀ z ∈ xs, goodTime z := fun z hz => hl z (by simp [hz])
    exact insertT_pairwise hx
      (fun y hy => hxs y (mem_isortT.mp hy)) (ih hxs)

theorem filter_insertT {x : TaskWithTime} {l : List TaskWithTime} {m : Nat}
    (hx : goodTime x) (hl : ∀ y ∈ l, goodTime y) :
    (insertT x l).filter (fun t => taskKey t = m) =
      if taskKey x = m then x :: l.filter (fun t => taskKey t = m)
      else l.filter (fun t => taskKey t = m) := by
  induction l with
  | nil =>
    simp only [insertT, List.filter_cons, List.filter_nil]
    by_cases h : taskKey x = m <;> simp [h]
  | cons y ys ih =>
    have hy : goodTime y := hl y (by simp)
    have hys : ∀ z ∈ ys, goodTime z := fun z hz => hl z (by simp [hz])
    simp only [insertT]
    split
    · simp only [List.filter_cons]
      split <;> split <;> simp_all
    · rename_i hgt
      have hyx : taskKey y < taskKey x := by
        have := (cmpT_le_iff hx hy).not.mp hgt
        omega
      simp only [List.filter_cons, ih hys]
      by_cases hxm : taskKey x = m
      · have hym : ¬ (taskKey y = m) := by omega
        simp [hxm, hym]
      · by_cases hym : taskKey y = m <;> simp [hxm, hym]

theorem isortT_filter_key {l : List TaskWithTime} {m : Nat}
    (hl : ∀ y ∈ l, goodTime y) :
    (isortT l).filter (fun t => taskKey t = m) = l.filter (fun t => taskKey t = m) := by
  induction l with
  | nil => simp [isortT]
  | cons x xs ih =>
    have hx : goodTime x := hl x (by simp)
    have hxs : ∀ z ∈ xs, goodTime z := fun z hz => hl z (by simp [hz])
    simp only [isortT]
    rw [filter_insertT hx (fun y hy => hxs y (mem_isortT.mp hy))]
    rw [ih hxs, List.filter_cons]
    split <;> simp_all

/-! ## Lemmas about the letter buckets -/

theorem lookup_addToBucket (bs : List (String × List TaskWithTime)) (L K : String)
    (t : TaskWithTime) :
    lookupBucket (addToBucket bs L t) K =
      if K = L then some ((lookupBucket bs L).getD [] ++ [t]) else lookupBucket bs K := by
  induction bs with
  | nil =>
    simp only [addToBucket, lookupBucket]
    by_cases h : K = L
    · simp [h]
    · simp [h, Ne.symm h]
  | cons p rest ih =>
    obtain ⟨P, g⟩ := p
    simp only [addToBucket]
    by_cases hPL : P = L
    · subst hPL
      simp only [if_pos rfl, lookupBucket]
      by_cases hKP : K = P
      · simp [hKP]
      · simp [hKP, Ne.symm hKP]
    · simp only [if_neg hPL, lookupBucket]
      by_cases hKP : K = P
      · subst hKP
        have hKL : ¬ K = L := fun h => hPL h
        simp [hKL]
      · simp [hKP, Ne.symm hKP, ih]

/-- Running the `tasksByLetter` fold over `ts` extends every bucket by exactly
the tasks of that letter, in input order. -/
theorem lookup_foldl_buckets (ts : List TaskWithTime)
    (bs : List (String × List TaskWithTime)) (L : String) :
    (lookupBucket (ts.foldl
        (fun bs t =>
          match getTaskLetter t.line with
          | some K => addToBucket bs K t
          | none => bs) bs) L).getD [] =
      (lookupBucket bs L).getD [] ++ ts.filter (fun t => getTaskLetter t.line = some L) := by
  induction ts generalizing bs with
  | nil => simp
  | cons t rest ih =>
    simp only [List.foldl_cons, List.filter_cons]
    rcases hL : getTaskLetter t.line with _ | K
    · simp only [hL]
      rw [ih]
      have : (decide (getTaskLetter t.line = some L)) = false := by simp [hL]
      simp [this]
    · simp only [hL]
      rw [ih, lookup_addToBucket]
      by_cases hKL : L = K
      · subst hKL
        have : (decide (getTaskLetter t.line = some L)) = true := by simp [hL]
        simp [this]
      · have hd : (decide (getTaskLetter t.line = some L)) = false := by
          simp [hL]; exact fun h => hKL h.symm
        simp [hd, hKL, Ne.symm hKL]

theorem lookup_buildBuckets (ts : List TaskWithTime) (L : String) :
    (lookupBucket (buildBuckets ts) L).getD [] =
      ts.filter (fun t => getTaskLetter t.line = some L) := by
  unfold buildBuckets
  rw [lookup_foldl_buckets]
  simp [lookupBucket]

/-- The letter-ordered emission is the concatenation of the per-letter
buckets. -/
theorem foldl_letters_eq (buckets : List (String × List TaskWithTime))
    (letters : List String) (acc : List TaskWithTime) :
    letters.foldl
        (fun acc L =>
          match lookupBucket buckets L with
          | some g => acc ++ g
          | none => acc) acc =
      acc ++ (letters.map (fun L => (lookupBucket buckets L).getD [])).flatten := by
  induction letters generalizing acc with
  | nil => simp
  | cons L ls ih =>
    simp only [List.foldl_cons, List.map_cons, List.flatten_cons]
    rcases h : lookupBucket buckets L with _ | g
    · simp only [h]
      rw [ih]
      simp [h]
    · simp only [h]
      rw [ih]
      simp [h, List.append_assoc]

/-- Extensional description of `sortTasks`: the stable sort of the timed tasks
followed by the per-letter groups of the untimed tasks, groups in
`taskLetters` order, input order inside each group. -/
theorem sortTasks_eq (cfg : Config) (ts : List TaskWithTime) :
    sortTasks cfg ts =
      isortT (ts.filter (fun t => t.time.isSome)) ++
        (cfg.taskLetters.map
          (fun L => (ts.filter (fun t => t.time.isNone)).filter
            (fun t => getTaskLetter t.line = some L))).flatten := by
  simp only [sortTasks]
  rw [foldl_letters_eq]
  simp only [List.nil_append]
  congr 1
  congr 1
  congr 1
  funext L
  exact lookup_buildBuckets _ _

/-! ## Well-formed time strings -/

/-- Shape of every string the time extractor can produce: one or two digits,
a colon, two digits.  (JavaScript would compare `NaN` keys -- that is, treat
the comparison as a tie -- on time strings of any other shape, but the engine
only ever stores extractor output in `time`, so the sort theorems assume this
shape.) -/
def wfTimeShape (s : String) : Bool :=
  match s.data with
  | [a, ':', c, d] => isDigitCh a && isDigitCh c && isDigitCh d
  | [a, b, ':', c, d] => isDigitCh a && isDigitCh b && isDigitCh c && isDigitCh d
  | _ => false

/-- A well-formed time that is also a real clock time: hour at most 23 and
minute at most 59. -/
def validClockTime (s : String) : Bool :=
  match s.data with
  | [a, ':', c, d] => isDigitCh a && isDigitCh c && isDigitCh d &&
      decide (natOfDigits [c, d] ≤ 59)
  | [a, b, ':', c, d] => isDigitCh a && isDigitCh b && isDigitCh c && isDigitCh d &&
      decide (natOfDigits [a, b] ≤ 23) && decide (natOfDigits [c, d] ≤ 59)
  | _ => false

theorem digit_toNat_bounds {c : Char} (h : isDigitCh c = true) :
    48 ≤ c.toNat ∧ c.toNat ≤ 57 := by
  simpa [isDigitCh, Char.le_def] using h

theorem digit_ne_colon {c : Char} (h : isDigitCh c = true) : ¬ (c = ':') := by
  intro he
  subst he
  exact absurd h (by decide)

theorem wfTimeShape_ne_empty {s : String} (h : wfTimeShape s = true) : s ≠ "" := by
  intro he
  rw [he] at h
  exact absurd h (by decide)

theorem goodTime_of_wf {t : TaskWithTime} (hsome : t.time.isSome = true)
    (hwf : t.time.all wfTimeShape = true) : goodTime t := by
  rcases h : t.time with _ | s
  · rw [h] at hsome
    exact absurd hsome (by decide)
  · rw [h] at hwf
    simp only [Option.all_some] at hwf
    refine ⟨by simp [h], ?_⟩
    rw [h]
    intro he
    injection he with he
    exact wfTimeShape_ne_empty hwf he

theorem timeMinutes_shape_one {a c d : Char} {s : String}
    (hs : s.data = [a, ':', c, d])
    (ha : isDigitCh a = true) (hc : isDigitCh c = true) (hd : isDigitCh d = true) :
    timeMinutes s = natOfDigits [a] * 60 + natOfDigits [c, d] := by
  unfold timeMinutes
  rw [hs]
  simp [splitOnCh, digit_ne_colon ha, digit_ne_colon hc, digit_ne_colon hd]

theorem timeMinutes_shape_two {a b c d : Char} {s : String}
    (hs : s.data = [a, b, ':', c, d])
    (ha : isDigitCh a = true) (hb : isDigitCh b = true)
    (hc : isDigitCh c = true) (hd : isDigitCh d = true) :
    timeMinutes s = natOfDigits [a, b] * 60 + natOfDigits [c, d] := by
  unfold timeMinutes
  rw [hs]
  simp [splitOnCh, digit_ne_colon ha, digit_ne_colon hb, digit_ne_colon hc, digit_ne_colon hd]

theorem natOfDigits_single_le {a : Char} (ha : isDigitCh a = true) :
    natOfDigits [a] ≤ 9 := by
  have := digit_toNat_bounds ha
  have h0 : '0'.toNat = 48 := rfl
  simp only [natOfDigits, List.foldl_cons, List.foldl_nil]
  omega

theorem validClockTime_minutes_le {s : String} (h : validClockTime s = true) :
    timeMinutes s ≤ 1439 := by
  unfold validClockTime at h
  split at h
  · rename_i a c d hs
    simp only [Bool.and_eq_true, decide_eq_true_eq] at h
    obtain ⟨⟨⟨ha, hc⟩, hd⟩, hm⟩ := h
    rw [timeMinutes_shape_one hs ha hc hd]
    have := natOfDigits_single_le ha
    omega
  · rename_i a b c d hs
    simp only [Bool.and_eq_true, decide_eq_true_eq] at h
    obtain ⟨⟨⟨⟨⟨ha, hb⟩, hc⟩, hd⟩, hh⟩, hm⟩ := h
    rw [timeMinutes_shape_two hs ha hb hc hd]
    omega
  · exact absurd h (by decide)

/-- C1: for every list of tagged entries passed to the merge/sort step, the
sorted output places all entries that have a `timeOfDay` first, in
non-decreasing order of `hours*60+minutes` with entries of equal time
keeping their relative input order, followed by all entries without a
`timeOfDay`, grouped by their uppercase bracket letter, with groups emitted
in the order the letters appear in the configured `taskLetters` list and
input order preserved within each group. -/
theorem C1_sortTasks_sort_and_group (cfg : Config) (ts : List TaskWithTime)
    (hwf : ∀ t ∈ ts, t.time.all wfTimeShape = true)
    (hletters : ∀ t ∈ ts, t.time = none →
      ∃ L, getTaskLetter t.line = some L ∧ L ∈ cfg.taskLetters) :
    ∃ T G, sortTasks cfg ts = T ++ G
      ∧ (∀ t ∈ T, t.time.isSome = true)
      ∧ T.Pairwise (fun a b => taskKey a ≤ taskKey b)
      ∧ (∀ m : Nat, T.filter (fun t => taskKey t = m)
          = (ts.filter (fun t => t.time.isSome)).filter (fun t => taskKey t = m))
      ∧ G = (cfg.taskLetters.map
          (fun L => (ts.filter (fun t => t.time.isNone)).filter
            (fun t => getTaskLetter t.line = some L))).flatten
      ∧ (∀ t ∈ ts, t.time.isSome = true → t ∈ T)
      ∧ (∀ t ∈ ts, t.time = none → t ∈ G) := by
  have hgood : ∀ y ∈ ts.filter (fun t => t.time.isSome), goodTime y := by
    intro y hy
    rw [List.mem_filter] at hy
    exact goodTime_of_wf hy.2 (hwf y hy.1)
  refine ⟨isortT (ts.filter (fun t => t.time.isSome)),
    (cfg.taskLetters.map
      (fun L => (ts.filter (fun t => t.time.isNone)).filter
        (fun t => getTaskLetter t.line = some L))).flatten,
    sortTasks_eq cfg ts, ?_, ?_, ?_, rfl, ?_, ?_⟩
  · intro t ht
    have := mem_isortT.mp ht
    exact (List.mem_filter.mp this).2
  · exact isortT_pairwise hgood
  · intro m
    exact isortT_filter_key hgood
  · intro t ht htime
    exact mem_isortT.mpr (List.mem_filter.mpr ⟨ht, htime⟩)
  · intro t ht hnone
    obtain ⟨L, hL, hmem⟩ := hletters t ht hnone
    rw [List.mem_flatten]
    refine ⟨(ts.filter (fun t => t.time.isNone)).filter
      (fun t => getTaskLetter t.line = some L), List.mem_map_of_mem _ hmem, ?_⟩
    rw [List.mem_filter, List.mem_filter]
    refine ⟨⟨ht, by simp [hnone]⟩, by simp [hL]⟩

/-- Witness for C1 at a concrete input: a timed entry and two untimed
entries with allow-listed letters. -/
theorem C1_sortTasks_sort_and_group_witness :
    ∃ T G,
      sortTasks cfg0
        [{ line := "> - [b] later", index := 0, time := none },
         { line := "> - [a] (time:: 09:30) standup", index := 1, time := some "09:30" },
         { line := "> - [a] buy milk", index := 2, time := none }] = T ++ G
      ∧ (∀ t ∈ T, t.time.isSome = true)
      ∧ T.Pairwise (fun a b => taskKey a ≤ taskKey b)
      ∧ (∀ m : Nat, T.filter (fun t => taskKey t = m)
          = (([{ line := "> - [b] later", index := 0, time := none },
               { line := "> - [a] (time:: 09:30) standup", index := 1, time := some "09:30" },
               { line := "> - [a] buy milk", index := 2, time := none }].filter
                (fun t => t.time.isSome)).filter (fun t => taskKey t = m)))
      ∧ G = (cfg0.taskLetters.map
          (fun L => ([{ line := "> - [b] later", index := 0, time := none },
               { line := "> - [a] (time:: 09:30) standup", index := 1, time := some "09:30" },
               { line := "> - [a] buy milk", index := 2, time := none }].filter
                (fun t => t.time.isNone)).filter
            (fun t => getTaskLetter t.line = some L))).flatten
      ∧ (∀ t ∈ [{ line := "> - [b] later", index := 0, time := none },
               { line := "> - [a] (time:: 09:30) standup", index := 1, time := some "09:30" },
               { line := "> - [a] buy milk", index := 2, time := none }],
          t.time.isSome = true → t ∈ T)
      ∧ (∀ t ∈ [{ line := "> - [b] later", index := 0, time := none },
               { line := "> - [a] (time:: 09:30) standup", index := 1, time := some "09:30" },
               { line := "> - [a] buy milk", index := 2, time := none }],
          t.time = none → t ∈ G) := by
  refine C1_sortTasks_sort_and_group cfg0 _ (by decide) ?_
  intro t ht hnone
  simp only [List.mem_cons, List.not_mem_nil, or_false] at ht
  rcases ht with rfl | rfl | rfl
  · exact ⟨"B", by decide, by decide⟩
  · exact absurd hnone (by decide)
  · exact ⟨"A", by decide, by decide⟩

/-- C9: an entry extracted from inside the collection section that has no
`(time::)` field and whose uppercase bracket letter is not in the configured
`taskLetters` appears in no output group of `sortTasks` and is therefore
silently dropped from the rewritten document, while section extraction itself
accepts any letter (concrete conjunct) and any timed entry survives into the
time-sorted part regardless of its letter. -/
theorem C9_out_of_list_letter_dropped (cfg : Config) (ts : List TaskWithTime)
    (t : TaskWithTime) (L : String)
    (hmem : t ∈ ts) (huntimed : t.time = none)
    (hletter : getTaskLetter t.line = some L) (hnot : L ∉ cfg.taskLetters) :
    t ∉ sortTasks cfg ts
      ∧ (∀ t' ∈ ts, t'.time.isSome = true → t' ∈ sortTasks cfg ts)
      ∧ findJotsSection cfg0 ["> [!jots]", "> - [z] x"]
          = some { startIndex := 0, endIndex := 1,
                   items := [{ line := "> - [z] x", index := 1, time := none }] } := by
  refine ⟨?_, ?_, by decide⟩
  · rw [sortTasks_eq]
    intro hin
    rcases List.mem_append.mp hin with hT | hG
    · have := (List.mem_filter.mp (mem_isortT.mp hT)).2
      rw [huntimed] at this
      exact absurd this (by decide)
    · rw [List.mem_flatten] at hG
      obtain ⟨l, hl, htl⟩ := hG
      rw [List.mem_map] at hl
      obtain ⟨L', hL', rfl⟩ := hl
      have := (List.mem_filter.mp htl).2
      rw [hletter] at this
      simp only [decide_eq_true_eq, Option.some.injEq] at this
      exact hnot (this ▸ hL')
  · intro t' ht' htime
    rw [sortTasks_eq]
    exact List.mem_append_left _ (mem_isortT.mpr (List.mem_filter.mpr ⟨ht', htime⟩))

/-- Witness for C9: an untimed `[z]` entry among the merged tasks is absent
from the sort output while the timed task survives. -/
theorem C9_out_of_list_letter_dropped_witness :
    ({ line := "> - [z] x", index := 1, time := none } : TaskWithTime) ∉
        sortTasks cfg0
          [{ line := "> - [z] x", index := 1, time := none },
           { line := "> - [q] (time:: 09:30) y", index := 2, time := some "09:30" }]
      ∧ (∀ t' ∈ [({ line := "> - [z] x", index := 1, time := none } : TaskWithTime),
           { line := "> - [q] (time:: 09:30) y", index := 2, time := some "09:30" }],
          t'.time.isSome = true →
            t' ∈ sortTasks cfg0
              [{ line := "> - [z] x", index := 1, time := none },
               { line := "> - [q] (time:: 09:30) y", index := 2, time := some "09:30" }])
      ∧ findJotsSection cfg0 ["> [!jots]", "> - [z] x"]
          = some { startIndex := 0, endIndex := 1,
                   items := [{ line := "> - [z] x", index := 1, time := none }] } :=
  C9_out_of_list_letter_dropped cfg0 _ _ "Z" (by decide) rfl (by decide) (by decide)

/-- A list splits at its `dropWhile` point with a head failing the predicate,
unless the remainder is empty. -/
theorem dropWhile_head_not {α : Type} (p : α → Bool) (l : List α) :
    l.dropWhile p = [] ∨
      ∃ h t, l.dropWhile p = h :: t ∧ p h = false := by
  induction l with
  | nil => exact Or.inl rfl
  | cons x xs ih =>
    by_cases hx : p x
    · rw [List.dropWhile_cons_of_pos hx]
      exact ih
    · rw [List.dropWhile_cons_of_neg hx]
      exact Or.inr ⟨x, xs, rfl, by simpa using hx⟩

theorem digit_not_ws {c : Char} (h : isDigitCh c = true) : isWsChar c = false := by
  have hb := digit_toNat_bounds h
  simp only [isWsChar, Bool.or_eq_false_iff, decide_eq_false_iff_not]
  refine ⟨⟨⟨?_, ?_⟩, ?_⟩, ?_⟩ <;>
    (intro he; subst he; exact absurd hb (by decide))

/-- The time extractor accepts any two-digit hour and two-digit minute: there
is no range validation on either field. -/
theorem extractTime_any_digits (d1 d2 d3 d4 : Char)
    (h1 : isDigitCh d1 = true) (h2 : isDigitCh d2 = true)
    (h3 : isDigitCh d3 = true) (h4 : isDigitCh d4 = true) :
    extractTimeFromTask (chStr ['(', 't', 'i', 'm', 'e', ':', ':', ' ', d1, d2, ':', d3, d4, ')'])
      = some (chStr [d1, d2, ':', d3, d4]) := by
  unfold extractTimeFromTask chStr
  simp only [extractTimeChars, timeTokenAt]
  have hdw : List.dropWhile isWsChar [' ', d1, d2, ':', d3, d4, ')']
      = d1 :: d2 :: ':' :: d3 :: d4 :: ')' :: [] := by
    simp [List.dropWhile_cons, show isWsChar ' ' = true from rfl, digit_not_ws h1]
  rw [hdw]
  have htd : timeDigits (d1 :: d2 :: ':' :: d3 :: d4 :: ')' :: [])
      = some [d1, d2, ':', d3, d4] := by
    simp [timeDigits, h1, h2, h3, h4]
  rw [htd]
  simp

/-- C10: `extractTimeFromTask` accepts any embedded `(time:: H:MM)` field with
a 1-2-digit hour and 2-digit minute without range validation -- `37:99` is
extracted as a time -- and `sortTasks` orders such an entry at
`hours*60+minutes`, after every entry carrying a valid clock time; no entry
is rejected because its hour exceeds 23 or its minute exceeds 59. -/
theorem C10_extractTime_no_range_validation (cfg : Config) (ts : List TaskWithTime)
    (t : TaskWithTime) (hmem : t ∈ ts) (htime : t.time = some "37:99")
    (hwf : ∀ t' ∈ ts, t'.time.all wfTimeShape = true) :
    extractTimeFromTask "- [a] (time:: 37:99) x" = some "37:99"
      ∧ (∀ d1 d2 d3 d4 : Char, isDigitCh d1 = true → isDigitCh d2 = true →
          isDigitCh d3 = true → isDigitCh d4 = true →
          extractTimeFromTask (chStr ['(', 't', 'i', 'm', 'e', ':', ':', ' ', d1, d2, ':', d3, d4, ')'])
            = some (chStr [d1, d2, ':', d3, d4]))
      ∧ timeMinutes "37:99" = 37 * 60 + 99
      ∧ t ∈ sortTasks cfg ts
      ∧ ∃ A B, sortTasks cfg ts = A ++ B ∧ t ∈ B
          ∧ ∀ t' ∈ ts, ∀ v, t'.time = some v → validClockTime v = true → t' ∈ A := by
  have hgood : ∀ y ∈ ts.filter (fun x => x.time.isSome), goodTime y := by
    intro y hy
    rw [List.mem_filter] at hy
    exact goodTime_of_wf hy.2 (hwf y hy.1)
  have hkt : taskKey t = 2319 := by
    simp only [taskKey, htime]
    decide
  have htT : t ∈ isortT (ts.filter (fun x => x.time.isSome)) :=
    mem_isortT.mpr (List.mem_filter.mpr ⟨hmem, by simp [htime]⟩)
  refine ⟨by decide, extractTime_any_digits, by decide, ?_, ?_⟩
  · rw [sortTasks_eq]
    exact List.mem_append_left _ htT
  · set T := isortT (ts.filter (fun x => x.time.isSome)) with hT
    set G := (cfg.taskLetters.map
      (fun L => (ts.filter (fun x => x.time.isNone)).filter
        (fun x => getTaskLetter x.line = some L))).flatten with hG
    set p : TaskWithTime → Bool := fun x => decide (taskKey x < 2319) with hp
    refine ⟨T.takeWhile p, T.dropWhile p ++ G, ?_, ?_, ?_⟩
    · rw [sortTasks_eq, ← hT, ← hG, ← List.append_assoc, List.takeWhile_append_dropWhile]
    · have hsplit : T = T.takeWhile p ++ T.dropWhile p :=
        (List.takeWhile_append_dropWhile p T).symm
      have : t ∉ T.takeWhile p := by
        intro hmemA
        have := List.mem_takeWhile_imp hmemA
        rw [hp] at this
        simp only [decide_eq_true_eq, hkt] at this
        omega
      rcases List.mem_append.mp (hsplit ▸ htT) with h | h
      · exact absurd h this
      · exact List.mem_append_left _ h
    · intro t' ht' v hv hvalid
      have ht'T : t' ∈ T :=
        mem_isortT.mpr (List.mem_filter.mpr ⟨ht', by simp [hv]⟩)
      have hk' : taskKey t' ≤ 1439 := by
        simp only [taskKey, hv]
        exact validClockTime_minutes_le hvalid
      have hpair : T.Pairwise (fun a b => taskKey a ≤ taskKey b) :=
        isortT_pairwise hgood
      have hsplit : T = T.takeWhile p ++ T.dropWhile p :=
        (List.takeWhile_append_dropWhile p T).symm
      have hdropBig : ∀ y ∈ T.dropWhile p, 2319 ≤ taskKey y := by
        rcases dropWhile_head_not p T with hnil | ⟨h, rest, heq, hph⟩
        · rw [hnil]
          intro y hy
          exact absurd hy (List.not_mem_nil y)
        · rw [heq]
          have hpd : T.Pairwise (fun a b => taskKey a ≤ taskKey b) := hpair
          rw [hsplit, List.pairwise_append] at hpd
          have hcons := hpd.2.1
          rw [heq, List.pairwise_cons] at hcons
          have hhk : 2319 ≤ taskKey h := by
            rw [hp] at hph
            simp only [decide_eq_false_iff_not] at hph
            omega
          intro y hy
          rcases List.mem_cons.mp hy with rfl | hy
          · exact hhk
          · exact le_trans hhk (hcons.1 y hy)
      rcases List.mem_append.mp (hsplit ▸ ht'T) with h | h
      · exact h
      · have := hdropBig t' h
        omega

/-- Witness for C10: a list holding the `37:99` entry and a valid `09:30`
entry. -/
theorem C10_extractTime_no_range_validation_witness :
    extractTimeFromTask "- [a] (time:: 37:99) x" = some "37:99"
      ∧ (∀ d1 d2 d3 d4 : Char, isDigitCh d1 = true → isDigitCh d2 = true →
          isDigitCh d3 = true → isDigitCh d4 = true →
          extractTimeFromTask (chStr ['(', 't', 'i', 'm', 'e', ':', ':', ' ', d1, d2, ':', d3, d4, ')'])
            = some (chStr [d1, d2, ':', d3, d4]))
      ∧ timeMinutes "37:99" = 37 * 60 + 99
      ∧ ({ line := "> - [a] (time:: 37:99) u", index := 0, time := some "37:99" } : TaskWithTime)
          ∈ sortTasks cfg0
            [{ line := "> - [a] (time:: 37:99) u", index := 0, time := some "37:99" },
             { line := "> - [a] (time:: 09:30) v", index := 1, time := some "09:30" }]
      ∧ ∃ A B, sortTasks cfg0
            [{ line := "> - [a] (time:: 37:99) u", index := 0, time := some "37:99" },
             { line := "> - [a] (time:: 09:30) v", index := 1, time := some "09:30" }] = A ++ B
          ∧ ({ line := "> - [a] (time:: 37:99) u", index := 0, time := some "37:99" } : TaskWithTime) ∈ B
          ∧ ∀ t' ∈ [({ line := "> - [a] (time:: 37:99) u", index := 0, time := some "37:99" } : TaskWithTime),
               { line := "> - [a] (time:: 09:30) v", index := 1, time := some "09:30" }],
              ∀ v, t'.time = some v → validClockTime v = true → t' ∈ A :=
  C10_extractTime_no_range_validation cfg0 _ _ (by decide) rfl (by decide)

/-! ## Lemmas about task discovery and deduplication -/

/-- The normalized content a collected task stands for: its stored line minus
the `"> "` marker the collector prepends. -/
def taskContent (t : TaskWithTime) : String :=
  chStr (t.line.data.drop 2)

/-- Specification-side first-seen deduplication against an initial seen set. -/
def dedupSeen (seen : List String) : List String → List String
  | [] => []
  | k :: rest => if k ∈ seen then dedupSeen seen rest else k :: dedupSeen (k :: seen) rest

theorem taskContent_mk (k : String) (i : Nat) (tm : Option String) :
    taskContent { line := "> " ++ k, index := i, time := tm } = k := by
  simp only [taskContent, String.data_append]
  rfl

theorem fmtGo_cons_none {cfg : Config} {l : String} {rest : List String}
    {i : Nat} {seen : List String} (h : keyOfLine cfg l = none) :
    fmtGo cfg (l :: rest) i seen = fmtGo cfg rest (i + 1) seen := by
  simp only [fmtGo, h]

theorem fmtGo_cons_some {cfg : Config} {l : String} {rest : List String}
    {i : Nat} {seen : List String} {k : String} (h : keyOfLine cfg l = some k) :
    fmtGo cfg (l :: rest) i seen =
      if k ∈ seen then fmtGo cfg rest (i + 1) seen
      else { line := "> " ++ k, index := i, time := extractTimeFromTask (strTrim l) }
        :: fmtGo cfg rest (i + 1) (k :: seen) := by
  simp only [fmtGo, h]

/-- The collector emits exactly the first-seen deduplication of the
normalized contents of the matching lines. -/
theorem fmtGo_content_keys (cfg : Config) (lines : List String) (i : Nat)
    (seen : List String) :
    (fmtGo cfg lines i seen).map taskContent =
      dedupSeen seen (lines.filterMap (keyOfLine cfg)) := by
  induction lines generalizing i seen with
  | nil => simp [fmtGo, dedupSeen]
  | cons l rest ih =>
    rcases h : keyOfLine cfg l with _ | k
    · rw [fmtGo_cons_none h, List.filterMap_cons_none h]
      exact ih (i + 1) seen
    · rw [fmtGo_cons_some h, List.filterMap_cons_some h]
      simp only [dedupSeen]
      by_cases hk : k ∈ seen
      · rw [if_pos hk, if_pos hk]
        exact ih (i + 1) seen
      · rw [if_neg hk, if_neg hk]
        simp only [List.map_cons, taskContent_mk]
        rw [ih (i + 1) (k :: seen)]

theorem fmtGo_eq_nil_iff (cfg : Config) (lines : List String) (i : Nat)
    (seen : List String) :
    fmtGo cfg lines i seen = [] ↔
      ∀ l ∈ lines, ∀ k, keyOfLine cfg l = some k → k ∈ seen := by
  induction lines generalizing i seen with
  | nil => simp [fmtGo]
  | cons l rest ih =>
    rcases h : keyOfLine cfg l with _ | k
    · rw [fmtGo_cons_none h, ih (i + 1) seen]
      constructor
      · intro hall l' hl' k hk
        rcases List.mem_cons.mp hl' with rfl | hl'
        · rw [h] at hk
          exact absurd hk (by simp)
        · exact hall l' hl' k hk
      · intro hall l' hl' k hk
        exact hall l' (List.mem_cons_of_mem l hl') k hk
    · rw [fmtGo_cons_some h]
      by_cases hk : k ∈ seen
      · rw [if_pos hk, ih (i + 1) seen]
        constructor
        · intro hall l' hl' k' hk'
          rcases List.mem_cons.mp hl' with rfl | hl'
          · rw [h] at hk'
            injection hk' with hk'
            exact hk' ▸ hk
          · exact hall l' hl' k' hk'
        · intro hall l' hl' k' hk'
          exact hall l' (List.mem_cons_of_mem l hl') k' hk'
      · rw [if_neg hk]
        simp only [List.cons_ne_nil, false_iff, not_forall]
        refine ⟨l, List.mem_cons_self l rest, k, h, hk⟩

/-- `findMatchingTasks` returns no tasks exactly when no line matches the
allow-listed task pattern. -/
theorem findMatchingTasks_eq_nil_iff (cfg : Config) (lines : List String) :
    findMatchingTasks cfg lines = [] ↔ ∀ l ∈ lines, keyOfLine cfg l = none := by
  unfold findMatchingTasks
  rw [fmtGo_eq_nil_iff]
  constructor
  · intro hall l hl
    rcases h : keyOfLine cfg l with _ | k
    · rfl
    · exact absurd (hall l hl k h) (List.not_mem_nil k)
  · intro hall l hl k hk
    rw [hall l hl] at hk
    exact absurd hk (by simp)

/-- Collection is complete: every line carrying an allow-listed content is
represented in the collector's output (possibly through an earlier duplicate
of the same normalized content). -/
theorem fmtGo_complete (cfg : Config) (lines : List String) (i : Nat)
    (seen : List String) (k : String)
    (hk : ∃ l ∈ lines, keyOfLine cfg l = some k) :
    k ∈ seen ∨ ∃ t ∈ fmtGo cfg lines i seen, t.line = "> " ++ k := by
  induction lines generalizing i seen with
  | nil =>
    obtain ⟨l, hl, _⟩ := hk
    exact absurd hl (List.not_mem_nil l)
  | cons l rest ih =>
    obtain ⟨l', hl', hkey⟩ := hk
    rcases h : keyOfLine cfg l with _ | k'
    · rw [fmtGo_cons_none h]
      rcases List.mem_cons.mp hl' with rfl | hl'
      · rw [h] at hkey
        exact absurd hkey (by simp)
      · exact ih (i + 1) seen ⟨l', hl', hkey⟩
    · rw [fmtGo_cons_some h]
      by_cases hks : k' ∈ seen
      · rw [if_pos hks]
        rcases List.mem_cons.mp hl' with rfl | hl'
        · rw [h] at hkey
          injection hkey with hkey
          exact Or.inl (hkey ▸ hks)
        · exact ih (i + 1) seen ⟨l', hl', hkey⟩
      · rw [if_neg hks]
        by_cases hkk : k = k'
        · subst hkk
          exact Or.inr ⟨_, List.mem_cons_self _ _, rfl⟩
        · rcases List.mem_cons.mp hl' with rfl | hl'
          · rw [h] at hkey
            injection hkey with hkey
            exact absurd hkey.symm hkk
          · rcases ih (i + 1) (k' :: seen) ⟨l', hl', hkey⟩ with hin | ⟨t, ht, hline⟩
            · rcases List.mem_cons.mp hin with heq | hin
              · exact absurd heq hkk
              · exact Or.inl hin
            · exact Or.inr ⟨t, List.mem_cons_of_mem _ ht, hline⟩

/-! ## The no-change sentinel -/

theorem findJotsSection_eq_none_iff (cfg : Config) (lines : List String) :
    findJotsSection cfg lines = none ↔ ∀ l ∈ lines, isJotsHeader cfg l = false := by
  unfold findJotsSection
  rcases h : lines.findIdx? (fun l => isJotsHeader cfg l) with _ | n
  · simp only []
    rw [List.findIdx?_eq_none_iff] at h
    simpa using h
  · simp only []
    rw [← List.findIdx?_eq_none_iff (p := fun l => isJotsHeader cfg l)]
    rw [h]
    simp

/-- The body rewrite returns the no-change sentinel exactly when there is
neither a section header nor any allow-listed task line in the body. -/
theorem processBody_eq_none_iff (cfg : Config) (fm : Option String) (body : String) :
    processBody cfg fm body = none ↔
      (findJotsSection cfg (strLines body) = none
        ∧ findMatchingTasks cfg (strLines body) = []) := by
  unfold processBody
  rcases h : findJotsSection cfg (strLines body) with _ | s
  · simp only [h]
    rcases hm : findMatchingTasks cfg (strLines body) with _ | ⟨t, ms⟩
    · simp [hm]
    · simp [hm]
  · simp [h]

/-- C5 counterexample: a document consisting of just the section header.  No
tagged entries occur outside the section (none occur at all) and the
existing header already carries the configured Plain fold-state, yet
`processFileContent` does not return the sentinel: it rewrites the document
(to the empty string, deleting the empty section). -/
theorem C5_counterexample :
    processFileContent cfg0 "> [!jots]" = some ""
      ∧ some "" ≠ (none : Option String)
      ∧ findMatchingTasks cfg0 ["> [!jots]"] = []
      ∧ createCalloutString cfg0 = "> [!jots]" := by
  refine ⟨by decide, by decide, by decide, by decide⟩

/-- C5 amended: `processFileContent` returns the no-change sentinel exactly
when the body contains neither a section-header line nor an allow-listed
tagged line; in particular (scenario 5) an input with no tagged entries and
no section returns the sentinel.  Whenever a section header is present the
document is rewritten, even if its fold-state already matches the
configuration. -/
theorem C5_no_change_sentinel (cfg : Config) (content : String) :
    processFileContent cfg content = none ↔
      ((∀ l ∈ strLines (yamlSplit content).2, isJotsHeader cfg l = false)
        ∧ (∀ l ∈ strLines (yamlSplit content).2, keyOfLine cfg l = none)) := by
  unfold processFileContent
  rw [processBody_eq_none_iff, findJotsSection_eq_none_iff, findMatchingTasks_eq_nil_iff]

/-- C2: the rewrite is not idempotent.  On the document below the first
application leaves two blank lines between the front matter and `hello`
(the blank left behind by removing the section from the top of the body is
kept, and a second separator blank is inserted after the front matter), and
the second application collapses them, so `rewrite (rewrite doc)` differs
from `rewrite doc`. -/
theorem C2_idempotence_fails :
    processFileContent cfg0 "---\na\n---\n> [!jots]\n> - [a] t\n\nhello"
        = some "---\na\n---\n\n\nhello\n\n> [!jots]\n> - [a] t"
      ∧ processFileContent cfg0 "---\na\n---\n\n\nhello\n\n> [!jots]\n> - [a] t"
        = some "---\na\n---\n\nhello\n\n> [!jots]\n> - [a] t"
      ∧ ("---\na\n---\n\nhello\n\n> [!jots]\n> - [a] t" : String)
        ≠ "---\na\n---\n\n\nhello\n\n> [!jots]\n> - [a] t" := by
  refine ⟨by decide, by decide, by decide⟩

/-- C8 counterexample: the closing delimiter of the front-matter pattern
matches any line that merely starts with three dashes.  This document has an
opening delimiter and no subsequent line equal to three dashes, yet the
engine does find front matter, consuming the first three dashes of the
four-dash line and leaving the fourth in the body. -/
theorem C8_counterexample :
    yamlSplit "---\na\n----\nb" = (some "---\na\n---", "-\nb")
      ∧ (yamlSplit "---\na\n----\nb").1 ≠ none
      ∧ (yamlSplit "---\na\n----\nb").2 ≠ strTrim "---\na\n----\nb" := by
  refine ⟨by decide, by decide, by decide⟩

/-- C8 amended: when the text opens with a front-matter delimiter line but no
later line (at line index at least 2) even starts with three dashes, the
front-matter isolation finds nothing: the whole trimmed text, stray opening
delimiter included, is processed as the body, and the rewrite proceeds on it
as on any other document. -/
theorem C8_unterminated_front_matter (cfg : Config) (content : String)
    (rest : List String) (hsplit : strLines content = "---" :: rest)
    (hnoclose : ∀ l ∈ rest.drop 1, strStarts l "---" = false) :
    yamlSplit content = (none, strTrim content)
      ∧ processFileContent cfg content = processBody cfg none (strTrim content) := by
  have hy : yamlSplit content = (none, strTrim content) := by
    unfold yamlSplit
    rw [hsplit]
    simp only [List.findIdx?_eq_none_iff.mpr hnoclose]
    simp
  refine ⟨hy, ?_⟩
  unfold processFileContent
  rw [hy]

/-- Witness for C8 at a concrete unterminated document. -/
theorem C8_unterminated_front_matter_witness :
    yamlSplit "---\ntitle: x\n- [a] t" = (none, strTrim "---\ntitle: x\n- [a] t")
      ∧ processFileContent cfg0 "---\ntitle: x\n- [a] t"
        = processBody cfg0 none (strTrim "---\ntitle: x\n- [a] t") :=
  C8_unterminated_front_matter cfg0 "---\ntitle: x\n- [a] t"
    ["title: x", "- [a] t"] (by decide) (by decide)

/-! ## Front-matter reattachment -/

theorem isPre_append (l r : List Char) : l.isPrefixOf (l ++ r) = true := by
  induction l with
  | nil => simp [List.isPrefixOf]
  | cons a as ih => simp [List.isPrefixOf, ih]

theorem joinLines_cons_cons (a b : String) (t : List String) :
    (joinLines (a :: b :: t)).data = a.data ++ '\n' :: (joinLines (b :: t)).data := by
  simp [joinLines, chStr, List.intersperse]

/-- C6 counterexample: an input that begins with a well-formed front-matter
block (opening delimiter, content, a closing line equal to three dashes)
whose content holds a line starting with three extra dashes.  The engine
closes the front matter at that earlier line instead, so the rewritten
output does not begin with the input's front-matter block byte-for-byte. -/
theorem C6_counterexample :
    strStarts "---\nx\n----\n---\n- [a] t" "---\nx\n----\n---" = true
      ∧ processFileContent cfg0 "---\nx\n----\n---\n- [a] t"
          = some "---\nx\n---\n\n-\n---\n\n> [!jots]\n> - [a] t"
      ∧ strStarts "---\nx\n---\n\n-\n---\n\n> [!jots]\n> - [a] t" "---\nx\n----\n---" = false := by
  refine ⟨by decide, by decide, by decide⟩

/-- What the body rewrite emits always begins with the front matter it was
handed, verbatim. -/
theorem processBody_front (cfg : Config) (fm body out : String)
    (h : processBody cfg (some fm) body = some out) : strStarts out fm = true := by
  simp only [processBody] at h
  split at h
  · rw [Option.some.injEq] at h
    subst h
    have hshape : ∀ (L e : List String),
        strStarts (joinLines (([fm, ""] ++ L) ++ e)) fm = true := by
      intro L e
      have : ([fm, ""] ++ L) ++ e = fm :: "" :: (L ++ e) := by simp
      rw [this, strStarts, joinLines_cons_cons]
      exact isPre_append fm.data _
    split
    · have := hshape (cleanupEmptyLines
        (if (findMatchingTasks cfg
              (match findJotsSection cfg (strLines body) with
               | some s => spliceSection (strLines body) s
               | none => strLines body)).isEmpty = true then
          (match findJotsSection cfg (strLines body) with
           | some s => spliceSection (strLines body) s
           | none => strLines body)
        else
          removeMatchingTasks
            (match findJotsSection cfg (strLines body) with
             | some s => spliceSection (strLines body) s
             | none => strLines body)
            (findMatchingTasks cfg
              (match findJotsSection cfg (strLines body) with
               | some s => spliceSection (strLines body) s
               | none => strLines body)))) []
      simpa using this
    · rename_i hne
      rw [show ∀ (b m r : List String), b ++ m ++ r = b ++ (m ++ r) from
        fun b m r => List.append_assoc b m r]
      exact hshape _ _
  · exact absurd h (by simp)

/-- C6 amended: the front matter the engine itself isolates (closing at the
first line, at index at least 2, that starts with three dashes) is
reattached verbatim at the very top: whenever the rewrite produces output,
that output begins byte-for-byte with the isolated front-matter string.
When no content line before the closing delimiter starts with three dashes,
that string coincides with the input's front-matter block. -/
theorem C6_front_matter_reattached (cfg : Config) (content fm body out : String)
    (hfm : yamlSplit content = (some fm, body))
    (hout : processFileContent cfg content = some out) :
    strStarts out fm = true := by
  unfold processFileContent at hout
  rw [hfm] at hout
  exact processBody_front cfg fm body out hout

/-- Witness for C6 on a concrete well-formed document. -/
theorem C6_front_matter_reattached_witness :
    strStarts "---\nkey: val\n---\n\n# Title\n\n> [!jots]\n> - [a] task" "---\nkey: val\n---" = true :=
  C6_front_matter_reattached cfg0 "---\nkey: val\n---\n# Title\n- [a] task"
    "---\nkey: val\n---" "# Title\n- [a] task"
    "---\nkey: val\n---\n\n# Title\n\n> [!jots]\n> - [a] task" (by decide) (by decide)

/-! ## Structure of matched task lines -/

/-- Right trim on character lists, the trailing half of `trim`. -/
def trimRightCh (x : List Char) : List Char :=
  (x.reverse.dropWhile isWsChar).reverse

theorem strTrim_data (s : String) :
    (strTrim s).data = trimRightCh (s.data.dropWhile isWsChar) := rfl

theorem dropWhile_idem (p : Char → Bool) (x : List Char) :
    (x.dropWhile p).dropWhile p = x.dropWhile p := by
  rcases dropWhile_head_not p x with h | ⟨a, t, h, ha⟩ <;> rw [h]
  · rfl
  · exact List.dropWhile_cons_of_neg (by simp [ha])

theorem trimRightCh_cons_head {a : Char} {t : List Char} (ha : isWsChar a = false) :
    ∃ t2, trimRightCh (a :: t) = a :: t2 := by
  unfold trimRightCh
  rw [List.reverse_cons, List.dropWhile_append]
  split
  · refine ⟨[], ?_⟩
    rw [List.dropWhile_cons_of_neg (by simp [ha])]
    rfl
  · refine ⟨(List.dropWhile isWsChar t.reverse).reverse, ?_⟩
    simp

theorem dropWhile_trimRight (x : List Char) :
    (trimRightCh (x.dropWhile isWsChar)).dropWhile isWsChar
      = trimRightCh (x.dropWhile isWsChar) := by
  rcases dropWhile_head_not isWsChar x with h | ⟨a, t, h, ha⟩ <;> rw [h]
  · rfl
  · obtain ⟨t2, h2⟩ := trimRightCh_cons_head ha
    rw [h2]
    exact List.dropWhile_cons_of_neg (by simp [ha])

theorem dashBracketLetter_build {c : Char} (hc : isAsciiLetter c = true)
    {w : List Char} (hw : ∀ x ∈ w, isWsChar x = true) (rest : List Char) :
    dashBracketLetter ('-' :: (w ++ '[' :: c :: ']' :: rest)) = some c := by
  have hdw : (w ++ '[' :: c :: ']' :: rest).dropWhile isWsChar = '[' :: c :: ']' :: rest := by
    rw [List.dropWhile_append]
    have hwnil : w.dropWhile isWsChar = [] := List.dropWhile_eq_nil_iff.mpr hw
    rw [hwnil]
    simp only [List.isEmpty_nil, if_true]
    exact List.dropWhile_cons_of_neg (by decide)
  simp only [dashBracketLetter, hdw]
  simp [hc]

theorem dashBracketLetter_inv {l : List Char} {c : Char}
    (h : dashBracketLetter l = some c) :
    ∃ w rest, l = '-' :: (w ++ '[' :: c :: ']' :: rest)
      ∧ (∀ x ∈ w, isWsChar x = true) ∧ isAsciiLetter c = true := by
  unfold dashBracketLetter at h
  split at h
  · rename_i r1
    split at h
    · rename_i c' rest' hdrop
      split at h
      · rename_i hca
        split at h
        · rename_i rest2
          injection h with h
          subst h
          refine ⟨r1.takeWhile isWsChar, rest2, ?_, ?_, hca⟩
          · have := List.takeWhile_append_dropWhile isWsChar r1
            rw [hdrop] at this
            exact congrArg (fun z => '-' :: z) this.symm
          · exact fun x hx => List.mem_takeWhile_imp hx
        · exact absurd h (by simp)
      · exact absurd h (by simp)
    · exact absurd h (by simp)
  · exact absurd h (by simp)

theorem dashBracketLetter_trimRight {l : List Char} {c : Char}
    (h : dashBracketLetter l = some c) :
    dashBracketLetter (trimRightCh l) = some c := by
  obtain ⟨w, rest, rfl, hw, hc⟩ := dashBracketLetter_inv h
  unfold trimRightCh
  have hrev : ('-' :: (w ++ '[' :: c :: ']' :: rest)).reverse
      = rest.reverse ++ ']' :: c :: '[' :: (w.reverse ++ ['-']) := by
    simp
  rw [hrev, List.dropWhile_append]
  split
  · rw [List.dropWhile_cons_of_neg (by decide)]
    have : (']' :: c :: '[' :: (w.reverse ++ ['-'])).reverse
        = '-' :: (w ++ '[' :: c :: ']' :: []) := by
      simp
    rw [this]
    exact dashBracketLetter_build hc hw []
  · rw [List.reverse_append]
    have : (']' :: c :: '[' :: (w.reverse ++ ['-'])).reverse
        = '-' :: (w ++ '[' :: c :: ']' :: []) := by
      simp
    rw [this]
    have hassoc : ('-' :: (w ++ '[' :: c :: ']' :: [])) ++ (List.dropWhile isWsChar rest.reverse).reverse
        = '-' :: (w ++ '[' :: c :: ']' :: (List.dropWhile isWsChar rest.reverse).reverse) := by
      simp
    rw [hassoc]
    exact dashBracketLetter_build hc hw _

theorem trimRightCh_idem (x : List Char) :
    trimRightCh (trimRightCh x) = trimRightCh x := by
  unfold trimRightCh
  rw [List.reverse_reverse, dropWhile_idem]

/-- The normalized content of a matched line still matches the bracket-letter
pattern with the same captured letter. -/
theorem normLine_letter {l : String} {c : Char}
    (hm : matchTaskOpt (strTrim l).data = some c) :
    dashBracketLetter (normLine l).data = some c := by
  have hd : ((strTrim l).data).dropWhile isWsChar = (strTrim l).data := by
    rw [strTrim_data]
    exact dropWhile_trimRight _
  simp only [matchTaskOpt] at hm
  unfold normLine stripQuote
  split at hm
  · rename_i r heq
    have h1 : (strTrim (chStr (r.dropWhile isWsChar))).data
        = trimRightCh ((r.dropWhile isWsChar).dropWhile isWsChar) := strTrim_data _
    rw [h1, dropWhile_idem]
    exact dashBracketLetter_trimRight hm
  · rename_i hne
    rw [hd] at hm
    have h2 : (strTrim (strTrim l)).data = trimRightCh ((strTrim l).data) :=
      (strTrim_data (strTrim l)).trans (congrArg trimRightCh hd)
    rw [h2]
    exact dashBracketLetter_trimRight hm

theorem keyOfLine_inv {cfg : Config} {l k : String} (h : keyOfLine cfg l = some k) :
    k = normLine l
      ∧ ∃ c, dashBracketLetter k.data = some c ∧ chStr [c.toUpper] ∈ cfg.taskLetters := by
  unfold keyOfLine at h
  split at h
  · rename_i c hm
    split at h
    · rename_i hmem
      injection h with h
      subst h
      exact ⟨rfl, c, normLine_letter hm, hmem⟩
    · exact absurd h (by simp)
  · exact absurd h (by simp)

theorem getTaskLetter_formatted {k : String} {c : Char}
    (h : dashBracketLetter k.data = some c) :
    getTaskLetter ("> " ++ k) = some (chStr [c.toUpper]) := by
  obtain ⟨w, rest, hk, hw, hc⟩ := dashBracketLetter_inv h
  have hdata : ("> " ++ k).data = '>' :: ' ' :: k.data := by
    rw [String.data_append]
    rfl
  have hdw : (' ' :: k.data).dropWhile isWsChar = k.data := by
    rw [List.dropWhile_cons_of_pos (by decide), hk]
    exact List.dropWhile_cons_of_neg (by decide)
  simp only [getTaskLetter, matchTaskQuoted, hdata, hdw, h]
  rfl

/-- A merged task survives into the sort output when it is timed or carries
an allow-listed letter. -/
theorem mem_sortTasks_of_mem {cfg : Config} {ts : List TaskWithTime} {t : TaskWithTime}
    (hmem : t ∈ ts)
    (hok : ∃ L, getTaskLetter t.line = some L ∧ L ∈ cfg.taskLetters) :
    t ∈ sortTasks cfg ts := by
  rw [sortTasks_eq]
  rcases htm : t.time with _ | v
  · obtain ⟨L, hL, hLin⟩ := hok
    refine List.mem_append_right _ ?_
    rw [List.mem_flatten]
    refine ⟨(ts.filter (fun x => x.time.isNone)).filter
      (fun x => getTaskLetter x.line = some L), List.mem_map_of_mem _ hLin, ?_⟩
    rw [List.mem_filter, List.mem_filter]
    exact ⟨⟨hmem, by simp [htm]⟩, by simp [hL]⟩
  · exact List.mem_append_left _
      (mem_isortT.mpr (List.mem_filter.mpr ⟨hmem, by simp [htm]⟩))

theorem findIdx?_zero_some {α : Type} {p : α → Bool} :
    ∀ {l : List α} {n : Nat}, List.findIdx? p l = some n →
      ∃ x, l.get? n = some x ∧ p x = true := by
  intro l
  induction l with
  | nil => intro n h; rw [List.findIdx?_nil] at h; exact Option.noConfusion h
  | cons a as ih =>
    intro n h
    rw [List.findIdx?_cons] at h
    by_cases hp : p a = true
    · rw [if_pos hp] at h
      injection h with h
      subst h
      exact ⟨a, rfl, hp⟩
    · rw [if_neg hp, List.findIdx?_succ] at h
      rcases hm : List.findIdx? p as with _ | m
      · rw [hm] at h
        exact Option.noConfusion h
      · rw [hm] at h
        have h2 : some (m + 1) = some n := h
        injection h2 with h2
        subst h2
        obtain ⟨x, hx, hpx⟩ := ih hm
        exact ⟨x, hx, hpx⟩

theorem findJotsSection_some_start {cfg : Config} {lines : List String} {s : JotsSection}
    (h : findJotsSection cfg lines = some s) :
    ∃ lh, lines.get? s.startIndex = some lh ∧ isJotsHeader cfg lh = true := by
  unfold findJotsSection at h
  rcases hidx : lines.findIdx? (fun l => isJotsHeader cfg l) with _ | n
  · rw [hidx] at h
    exact Option.noConfusion h
  · rw [hidx] at h
    simp only [Option.some.injEq] at h
    obtain ⟨x, hx, hpx⟩ := findIdx?_zero_some hidx
    rw [← h]
    exact ⟨x, hx, hpx⟩

theorem spliceSection_get {lines : List String} {s : JotsSection} {i : Nat}
    (hi : i < s.startIndex) (hlen : i < lines.length) :
    (spliceSection lines s).get? i = lines.get? i := by
  unfold spliceSection
  rw [List.get?_eq_getElem?, List.get?_eq_getElem?, List.getElem?_append]
  rw [if_pos (show i < (List.take s.startIndex lines).length by rw [List.length_take]; omega)]
  rw [List.getElem?_take, if_pos hi]

theorem backScanJots_none {cfg : Config} {lines : List String} :
    ∀ {i : Nat},
      (∀ j < i, isJotsHeader cfg (strTrim (((lines.get? j).getD ""))) = false) →
      backScanJots cfg lines i = none := by
  intro i
  induction i with
  | zero => intro _; rfl
  | succ j ih =>
    intro h
    unfold backScanJots
    rw [h j (by omega), if_neg (by simp)]
    exact ih (fun m hm => h m (by omega))

/-- C7: a tagged line with an allow-listed letter lying inside a blockquote
callout other than the configured section is not exempted by the containment
back-scan (which looks only for the configured header) and is still
collected by the task scan and carried into the rebuilt collection section;
only membership in the configured section itself (here excluded by the
no-configured-header hypotheses) exempts a line. -/
theorem C7_other_callouts_not_exempt (cfg : Config) (lines : List String)
    (i : Nat) (l : String) (k : String)
    (hl : lines.get? i = some l) (hkey : keyOfLine cfg l = some k)
    (j : Nat) (hj : j < i) (lj : String) (hlj : lines.get? j = some lj)
    (hcall : isAnyCalloutHeader (strTrim lj) = true)
    (hnotjots : isJotsHeader cfg (strTrim lj) = false)
    (hquoted : ∀ m, j ≤ m → m ≤ i → ∀ lm, lines.get? m = some lm →
        strStarts (strTrimLeft lm) ">" = true)
    (hnoheadRaw : ∀ m ≤ i, ∀ lm, lines.get? m = some lm → isJotsHeader cfg lm = false)
    (hnoheadTrim : ∀ m < i, isJotsHeader cfg (strTrim (((lines.get? m).getD ""))) = false) :
    isTaskInCallout cfg lines i = false
      ∧ (∃ t ∈ findMatchingTasks cfg
            (match findJotsSection cfg lines with
             | some s => spliceSection lines s
             | none => lines), t.line = "> " ++ k)
      ∧ (∃ t' ∈ sortTasks cfg
            ((match findJotsSection cfg lines with
              | some s => s.items
              | none => []) ++
              findMatchingTasks cfg
                (match findJotsSection cfg lines with
                 | some s => spliceSection lines s
                 | none => lines)), t'.line = "> " ++ k) := by
  have hlen : i < lines.length := by
    rw [List.get?_eq_getElem?] at hl
    exact (List.getElem?_eq_some.mp hl).1
  have hcollect : ∃ t ∈ findMatchingTasks cfg
      (match findJotsSection cfg lines with
       | some s => spliceSection lines s
       | none => lines), t.line = "> " ++ k := by
    rcases hsec : findJotsSection cfg lines with _ | s
    · simp only []
      have hmem : l ∈ lines := by
        rw [List.get?_eq_getElem?] at hl
        exact List.getElem?_mem hl
      rcases fmtGo_complete cfg lines 0 [] k ⟨l, hmem, hkey⟩ with hin | hex
      · exact absurd hin (List.not_mem_nil k)
      · exact hex
    · simp only []
      obtain ⟨lh, hlh, hish⟩ := findJotsSection_some_start hsec
      have hstart : i < s.startIndex := by
        by_contra hcon
        push_neg at hcon
        exact absurd hish (by simp [hnoheadRaw s.startIndex hcon lh hlh])
      have hget : (spliceSection lines s).get? i = some l := by
        rw [spliceSection_get hstart hlen]
        exact hl
      have hmem : l ∈ spliceSection lines s := by
        rw [List.get?_eq_getElem?] at hget
        exact List.getElem?_mem hget
      rcases fmtGo_complete cfg (spliceSection lines s) 0 [] k ⟨l, hmem, hkey⟩ with hin | hex
      · exact absurd hin (List.not_mem_nil k)
      · exact hex
  refine ⟨?_, hcollect, ?_⟩
  · unfold isTaskInCallout
    rw [backScanJots_none hnoheadTrim]
  · obtain ⟨t, htmem, htline⟩ := hcollect
    obtain ⟨hknorm, c, hdash, hletter⟩ := keyOfLine_inv hkey
    refine ⟨t, ?_, htline⟩
    refine mem_sortTasks_of_mem (List.mem_append_right _ htmem) ?_
    refine ⟨chStr [c.toUpper], ?_, hletter⟩
    rw [htline]
    exact getTaskLetter_formatted hdash

/-- Witness for C7: a tagged line inside a `[!other]` callout, no configured
section anywhere. -/
theorem C7_other_callouts_not_exempt_witness :
    isTaskInCallout cfg0 ["> [!other]", "> - [a] t", "x"] 1 = false
      ∧ (∃ t ∈ findMatchingTasks cfg0
            (match findJotsSection cfg0 ["> [!other]", "> - [a] t", "x"] with
             | some s => spliceSection ["> [!other]", "> - [a] t", "x"] s
             | none => ["> [!other]", "> - [a] t", "x"]), t.line = "> " ++ "- [a] t")
      ∧ (∃ t' ∈ sortTasks cfg0
            ((match findJotsSection cfg0 ["> [!other]", "> - [a] t", "x"] with
              | some s => s.items
              | none => []) ++
              findMatchingTasks cfg0
                (match findJotsSection cfg0 ["> [!other]", "> - [a] t", "x"] with
                 | some s => spliceSection ["> [!other]", "> - [a] t", "x"] s
                 | none => ["> [!other]", "> - [a] t", "x"])), t'.line = "> " ++ "- [a] t") := by
  refine C7_other_callouts_not_exempt cfg0 _ 1 "> - [a] t" "- [a] t" (by decide) (by decide)
    0 (by decide) "> [!other]" (by decide) (by decide) (by decide) ?_ (by decide) (by decide)
  intro m hm0 hm1 lm hlm
  have hm : m = 0 ∨ m = 1 := by omega
  rcases hm with rfl | rfl
  · rw [show (["> [!other]", "> - [a] t", "x"] : List String).get? 0
        = some "> [!other]" from rfl] at hlm
    injection hlm with hlm
    subst hlm
    decide
  · rw [show (["> [!other]", "> - [a] t", "x"] : List String).get? 1
        = some "> - [a] t" from rfl] at hlm
    injection hlm with hlm
    subst hlm
    decide

/-! ## First-seen deduplication facts -/

theorem dedupSeen_nodup : ∀ (ks seen : List String),
    (∀ k ∈ dedupSeen seen ks, k ∉ seen) ∧ (dedupSeen seen ks).Nodup := by
  intro ks
  induction ks with
  | nil =>
    intro seen
    exact ⟨fun k hk => absurd hk (List.not_mem_nil k), List.nodup_nil⟩
  | cons k rest ih =>
    intro seen
    simp only [dedupSeen]
    by_cases hk : k ∈ seen
    · rw [if_pos hk]
      exact ih seen
    · rw [if_neg hk]
      obtain ⟨hsub, hnd⟩ := ih (k :: seen)
      constructor
      · intro x hx
        rcases List.mem_cons.mp hx with rfl | hx
        · exact hk
        · exact fun hcon => hsub x hx (List.mem_cons_of_mem _ hcon)
      · refine List.nodup_cons.mpr ⟨?_, hnd⟩
        intro hcon
        exact hsub k hcon (List.mem_cons_self k seen)

/-- Every collected task records the index of the first line bearing its
normalized content, and that content was not already in the seen set. -/
theorem fmtGo_first_seen (cfg : Config) :
    ∀ (lines : List String) (i : Nat) (seen : List String),
      ∀ t ∈ fmtGo cfg lines i seen,
        taskContent t ∉ seen
          ∧ ∃ d lsrc, lines.get? d = some lsrc ∧ t.index = i + d
              ∧ keyOfLine cfg lsrc = some (taskContent t)
              ∧ ∀ j < d, ∀ l', lines.get? j = some l' →
                  keyOfLine cfg l' ≠ some (taskContent t) := by
  intro lines
  induction lines with
  | nil =>
    intro i seen t ht
    exact absurd ht (List.not_mem_nil t)
  | cons l rest ih =>
    intro i seen t ht
    rcases h : keyOfLine cfg l with _ | k
    · rw [fmtGo_cons_none h] at ht
      obtain ⟨hnots, d, lsrc, hget, hidx, hkey, hfirst⟩ := ih (i + 1) seen t ht
      refine ⟨hnots, d + 1, lsrc, hget, by omega, hkey, ?_⟩
      intro j hj l' hl'
      cases j with
      | zero =>
        rw [show (l :: rest).get? 0 = some l from rfl] at hl'
        injection hl' with hl'
        subst hl'
        rw [h]
        exact fun hc => Option.noConfusion hc
      | succ j' =>
        exact hfirst j' (by omega) l' hl'
    · rw [fmtGo_cons_some h] at ht
      by_cases hks : k ∈ seen
      · rw [if_pos hks] at ht
        obtain ⟨hnots, d, lsrc, hget, hidx, hkey, hfirst⟩ := ih (i + 1) seen t ht
        refine ⟨hnots, d + 1, lsrc, hget, by omega, hkey, ?_⟩
        intro j hj l' hl'
        cases j with
        | zero =>
          rw [show (l :: rest).get? 0 = some l from rfl] at hl'
          injection hl' with hl'
          subst hl'
          rw [h]
          intro hc
          injection hc with hc
          exact hnots (hc ▸ hks)
        | succ j' =>
          exact hfirst j' (by omega) l' hl'
      · rw [if_neg hks] at ht
        rcases List.mem_cons.mp ht with rfl | ht
        · refine ⟨by rw [taskContent_mk]; exact hks, 0, l, rfl, by simp,
            by rw [taskContent_mk]; exact h, ?_⟩
          intro j hj
          omega
        · obtain ⟨hnots, d, lsrc, hget, hidx, hkey, hfirst⟩ := ih (i + 1) (k :: seen) t ht
          have hkne : taskContent t ≠ k :=
            fun hc => hnots (hc ▸ List.mem_cons_self k seen)
          refine ⟨fun hc => hnots (List.mem_cons_of_mem _ hc), d + 1, lsrc, hget,
            by omega, hkey, ?_⟩
          intro j hj l' hl'
          cases j with
          | zero =>
            rw [show (l :: rest).get? 0 = some l from rfl] at hl'
            injection hl' with hl'
            subst hl'
            rw [h]
            intro hc
            injection hc with hc
            exact hkne hc.symm
          | succ j' =>
            exact hfirst j' (by omega) l' hl'

/-- `/\s+/g -> ' '` : collapse every whitespace run to a single space, the
normalization the specification's duplicate rule describes. -/
def collapseWs : List Char → List Char
  | [] => []
  | [c] => if isWsChar c then [' '] else [c]
  | a :: b :: rest =>
    if isWsChar a && isWsChar b then collapseWs (b :: rest)
    else (if isWsChar a then ' ' else a) :: collapseWs (b :: rest)

/-- C4 counterexample: two tagged lines whose contents are equal after
stripping quote markers and collapsing internal whitespace -- the
specification's duplicate rule -- but differ in raw internal whitespace.
The engine deduplicates on exact normalized content only, so both survive
into the rewritten collection section. -/
theorem C4_counterexample :
    processFileContent cfg0 "- [a] x  y\n\n- [a] x y"
        = some "> [!jots]\n> - [a] x  y\n> - [a] x y"
      ∧ collapseWs (normLine "- [a] x  y").data = collapseWs (normLine "- [a] x y").data
      ∧ normLine "- [a] x  y" ≠ normLine "- [a] x y" := by
  refine ⟨by decide, by decide, by decide⟩

/-- C4 amended: duplicates are collapsed first-seen, but only under exact
equality of the content after stripping the leading quote marker and
trimming -- internal whitespace is not collapsed.  Each surviving entry
records the index of the first line bearing its exact normalized content,
no earlier line bears it, and no two surviving entries share a content. -/
theorem C4_exact_first_seen_dedup (cfg : Config) (lines : List String) :
    ((findMatchingTasks cfg lines).map taskContent).Nodup
      ∧ ∀ t ∈ findMatchingTasks cfg lines,
          ∃ lsrc, lines.get? t.index = some lsrc
            ∧ keyOfLine cfg lsrc = some (taskContent t)
            ∧ ∀ j < t.index, ∀ l', lines.get? j = some l' →
                keyOfLine cfg l' ≠ some (taskContent t) := by
  constructor
  · rw [findMatchingTasks, fmtGo_content_keys]
    exact (dedupSeen_nodup _ _).2
  · intro t ht
    obtain ⟨hnots, d, lsrc, hget, hidx, hkey, hfirst⟩ :=
      fmtGo_first_seen cfg lines 0 [] t ht
    have hd : t.index = d := by omega
    rw [hd]
    exact ⟨lsrc, hget, hkey, hfirst⟩

/-! ## Content conservation at the merge -/

theorem filter_disjoint_perm {α : Type} (p q : α → Bool) (l : List α)
    (hdisj : ∀ x, ¬(p x = true ∧ q x = true)) :
    (l.filter p ++ l.filter q).Perm (l.filter (fun x => p x || q x)) := by
  induction l with
  | nil => simp
  | cons x xs ih =>
    rcases hp : p x with _ | _ <;> rcases hq : q x with _ | _
    · simp only [List.filter_cons, hp, hq]
      simpa using ih
    · simp only [List.filter_cons, hp, hq, Bool.false_or]
      refine (List.perm_middle).trans ?_
      simpa using ih.cons x
    · simp only [List.filter_cons, hp, hq, Bool.true_or]
      simpa using ih.cons x
    · exact absurd ⟨hp, hq⟩ (hdisj x)

/-- Whether a task's letter sits in the allow-list. -/
def letterInList (letters : List String) (t : TaskWithTime) : Bool :=
  match getTaskLetter t.line with
  | some L => decide (L ∈ letters)
  | none => false

theorem flatten_letter_groups_perm (letters : List String) (hnd : letters.Nodup)
    (l : List TaskWithTime) :
    ((letters.map (fun L => l.filter (fun t => getTaskLetter t.line = some L))).flatten).Perm
      (l.filter (letterInList letters)) := by
  induction letters with
  | nil =>
    simp only [List.map_nil, List.flatten_nil]
    have : l.filter (letterInList []) = [] := by
      rw [List.filter_eq_nil_iff]
      intro t _
      simp only [letterInList]
      rcases getTaskLetter t.line with _ | L <;> simp
    rw [this]
  | cons L ls ih =>
    have hndtail : ls.Nodup := (List.nodup_cons.mp hnd).2
    have hLnot : L ∉ ls := (List.nodup_cons.mp hnd).1
    simp only [List.map_cons, List.flatten_cons]
    have hperm := (ih hndtail).append_left (l.filter (fun t => getTaskLetter t.line = some L))
    refine hperm.trans ?_
    have hdisj : ∀ t, ¬((decide (getTaskLetter t.line = some L)) = true
        ∧ letterInList ls t = true) := by
      intro t ⟨h1, h2⟩
      simp only [decide_eq_true_eq] at h1
      simp only [letterInList, h1, decide_eq_true_eq] at h2
      exact hLnot h2
    refine (filter_disjoint_perm _ _ l hdisj).trans ?_
    have : ∀ t ∈ l, ((decide (getTaskLetter t.line = some L)) || letterInList ls t)
        = letterInList (L :: ls) t := by
      intro t _
      simp only [letterInList]
      rcases hgt : getTaskLetter t.line with _ | K
      · simp
      · by_cases hKL : K = L
        · subst hKL
          simp
        · simp [hKL, Ne.symm hKL]
    rw [List.filter_congr this]

/-- C3 counterexample: a content present once inside the existing section and
once outside.  The input's tagged-content multiset holds it twice; minus
exact duplicates it would appear once; the rewritten output still holds it
twice, because the section's own items are never deduplicated against the
collected outside entries. -/
theorem C3_counterexample :
    processFileContent cfg0 "> [!jots]\n> - [a] t\n\n- [a] t"
        = some "> [!jots]\n> - [a] t\n> - [a] t"
      ∧ (taggedContents cfg0 "> [!jots]\n> - [a] t\n\n- [a] t").count "- [a] t" = 2
      ∧ (dedupSeen [] (taggedContents cfg0 "> [!jots]\n> - [a] t\n\n- [a] t")).count "- [a] t" = 1
      ∧ (taggedContents cfg0 "> [!jots]\n> - [a] t\n> - [a] t").count "- [a] t" = 2 := by
  refine ⟨by decide, by decide, by decide, by decide⟩

/-- C3 amended: content conservation holds in the following weaker form.  The
merge step emits exactly the merged entries that are timed or carry an
allow-listed letter, as a multiset (nothing else is lost or invented by the
sort), and the outside collection pass emits exactly the first-seen
deduplication of the exact normalized contents of the matching lines.
Entries already inside the section are not deduplicated against collected
outside entries, so only exact duplicates among the outside entries are
collapsed. -/
theorem C3_content_conservation (cfg : Config) (hnd : cfg.taskLetters.Nodup)
    (ts : List TaskWithTime) (lines : List String) :
    (sortTasks cfg ts).Perm
        (ts.filter (fun t => t.time.isSome || letterInList cfg.taskLetters t))
      ∧ (findMatchingTasks cfg lines).map taskContent
          = dedupSeen [] (lines.filterMap (keyOfLine cfg)) := by
  constructor
  · rw [sortTasks_eq]
    have h1 := (isortT_perm (ts.filter (fun t => t.time.isSome))).append
      (flatten_letter_groups_perm cfg.taskLetters hnd (ts.filter (fun t => t.time.isNone)))
    refine h1.trans ?_
    rw [List.filter_filter]
    have hdisj : ∀ t, ¬((fun t => t.time.isSome) t = true
        ∧ (fun t => letterInList cfg.taskLetters t && t.time.isNone) t = true) := by
      intro t hcon
      obtain ⟨hp, hq⟩ := hcon
      rcases htm : t.time with _ | v
      · simp [htm] at hp
      · simp [htm] at hq
    refine (filter_disjoint_perm _ _ ts hdisj).trans ?_
    have : ∀ t ∈ ts, (t.time.isSome || (letterInList cfg.taskLetters t && t.time.isNone))
        = (t.time.isSome || letterInList cfg.taskLetters t) := by
      intro t _
      rcases htm : t.time with _ | v <;> simp [htm]
    rw [List.filter_congr this]
  · exact fmtGo_content_keys cfg lines 0 []

/-- Witness for C3 on concrete inputs. -/
theorem C3_content_conservation_witness :
    (sortTasks cfg0
        [{ line := "> - [a] u", index := 0, time := none },
         { line := "> - [z] v", index := 1, time := none },
         { line := "> - [b] (time:: 08:00) w", index := 2, time := some "08:00" }]).Perm
        ([{ line := "> - [a] u", index := 0, time := none },
          { line := "> - [z] v", index := 1, time := none },
          { line := "> - [b] (time:: 08:00) w", index := 2, time := some "08:00" }].filter
          (fun t => t.time.isSome || letterInList cfg0.taskLetters t))
      ∧ (findMatchingTasks cfg0 ["- [a] t", "", "- [a] t", "- [b] s"]).map taskContent
          = dedupSeen [] (["- [a] t", "", "- [a] t", "- [b] s"].filterMap (keyOfLine cfg0)) :=
  C3_content_conservation cfg0 (by decide) _ _
